import Mathlib

/-!
Shallow embedding of the octree builder (src/bin/build_octree.rs) of the
point_cloud_viewer repository: node naming, child indexing, the splitter,
the subsampler loop and the progress reporter, together with theorems that
check the specification claims against these definitions.

Positions are 32-bit floats in the source; they are modelled here as exact
rationals, so comparisons and arithmetic behave like real-number
arithmetic.  Machine integer counters (i64) are modelled as Int or Nat as
noted at each definition.  File contents are modelled as lists of points.
-/

/-- Three-dimensional vector of coordinates, modelling Vector3f of the
point_viewer math module (f32 coordinates modelled as rationals). -/
structure Vector3f where
  x : ℚ
  y : ℚ
  z : ℚ
  deriving DecidableEq

/-- A colored point, modelling the Point struct: position plus r, g, b
color bytes (the byte values play no role in the claims). -/
structure Point where
  position : Vector3f
  r : Nat
  g : Nat
  b : Nat
  deriving DecidableEq

/-- Axis-aligned bounding box tracked by min and max vectors, modelling
BoundingBox of the point_viewer math module. -/
structure BoundingBox where
  min : Vector3f
  max : Vector3f
  deriving DecidableEq

/-- Modelled from the spec: BoundingBox must support querying the center
(the BoundingBox type lives in the external point_viewer crate, not under
src/).  The center is the midpoint of min and max on each axis. -/
def BoundingBox.center (b : BoundingBox) : Vector3f :=
  ⟨(b.min.x + b.max.x) / 2, (b.min.y + b.max.y) / 2, (b.min.z + b.max.z) / 2⟩

/-- Modelled from the spec: BoundingBox must support update with a point,
growing min and max componentwise so that the point is contained. -/
def BoundingBox.update (b : BoundingBox) (v : Vector3f) : BoundingBox :=
  ⟨⟨Min.min b.min.x v.x, Min.min b.min.y v.y, Min.min b.min.z v.z⟩,
   ⟨Max.max b.max.x v.x, Max.max b.max.y v.y, Max.max b.max.z v.z⟩⟩

/-- Modelled from the spec: produce a cubic variant of the box by expanding
the shorter axes so all three extents are equal and centered on the
original center. -/
def BoundingBox.make_cubic (b : BoundingBox) : BoundingBox :=
  let ex := b.max.x - b.min.x
  let ey := b.max.y - b.min.y
  let ez := b.max.z - b.min.z
  let m := Max.max ex (Max.max ey ez)
  let c := b.center
  ⟨⟨c.x - m / 2, c.y - m / 2, c.z - m / 2⟩,
   ⟨c.x + m / 2, c.y + m / 2, c.z + m / 2⟩⟩

/-- Componentwise containment of a position in a bounding box. -/
def BoundingBox.containsPos (b : BoundingBox) (v : Vector3f) : Prop :=
  b.min.x ≤ v.x ∧ v.x ≤ b.max.x ∧
  b.min.y ≤ v.y ∧ v.y ≤ b.max.y ∧
  b.min.z ≤ v.z ∧ v.z ≤ b.max.z

instance (b : BoundingBox) (v : Vector3f) : Decidable (b.containsPos v) := by
  unfold BoundingBox.containsPos; infer_instance

/-- Modelled from the spec: a child i of node N has name N followed by the
digit i (node naming lives in the external octree module, not under
src/). -/
def child_node_name (parent : String) (child_index : Nat) : String :=
  String.mk (parent.data ++ [Char.ofNat (48 + child_index)])

/-- Modelled from the spec: the parent of a name of length greater than one
drops the last character; the parent of the root r is the empty string. -/
def parent_node_name (name : String) : String :=
  String.mk name.data.dropLast

/-- Modelled from the spec: the file of a node is directly in the output
directory and is named by the node name, with no extension. -/
def node_path (directory name : String) : String :=
  directory ++ "/" ++ name

/-- The last character of a node name decoded as a digit (used to state the
partition-correctness claim about child file names). -/
def lastDigit (name : String) : Nat :=
  (name.data.getLast?.map (fun c => c.toNat - 48)).getD 0

/-- Child index of a position inside a bounding box, translated from
get_child_index: the 3-bit value built from the three greater-than
comparisons with the center (u8 modelled as Nat). -/
def get_child_index (bounding_box : BoundingBox) (v : Vector3f) : Nat :=
  let center := bounding_box.center
  let gt_x : Bool := decide (v.x > center.x)
  let gt_y : Bool := decide (v.y > center.y)
  let gt_z : Bool := decide (v.z > center.z)
  gt_x.toNat <<< 2 ||| gt_y.toNat <<< 1 ||| gt_z.toNat

/-- Modelled from the spec: the child bounding box is the octant of the
parent box selected by the bit pattern of the child index, consistent with
the child-index encoding (x is bit 2, y is bit 1, z is bit 0). -/
def get_child_bounding_box (bounding_box : BoundingBox) (child_index : Nat) : BoundingBox :=
  let c := bounding_box.center
  ⟨⟨if child_index &&& 4 ≠ 0 then c.x else bounding_box.min.x,
    if child_index &&& 2 ≠ 0 then c.y else bounding_box.min.y,
    if child_index &&& 1 ≠ 0 then c.z else bounding_box.min.z⟩,
   ⟨if child_index &&& 4 ≠ 0 then bounding_box.max.x else c.x,
    if child_index &&& 2 ≠ 0 then bounding_box.max.y else c.y,
    if child_index &&& 1 ≠ 0 then bounding_box.max.z else c.z⟩⟩

lemma childIndexBits_lt (a b c : Bool) :
    a.toNat <<< 2 ||| b.toNat <<< 1 ||| c.toNat < 8 := by
  cases a <;> cases b <;> cases c <;> decide

/-- C9: for every bounding box and every position, get_child_index returns
a value at most 7, so indexing the 8-element writer array in split with it
is always in bounds and the out-of-bounds panic branch is unreachable. -/
theorem get_child_index_lt_eight (bounding_box : BoundingBox) (v : Vector3f) :
    get_child_index bounding_box v < 8 :=
  childIndexBits_lt _ _ _

/-- Transient descriptor returned by split, translated from SplittedNode
(num_points is i64 in the source, modelled as Int). -/
structure SplittedNode where
  name : String
  bounding_box : BoundingBox
  num_points : Int
  deriving DecidableEq

/-- The state of the 8 optional child NodeWriters of split, indexed by
child index: none means the writer (and hence its file on disk) was never
created, some c means the writer was created and holds the points c in
write order. -/
abbrev ChildWriters := Nat → Option (List Point)

/-- One iteration of the stream loop in split: compute the child index of
the point, lazily create the writer for that index if absent, and append
the point to it. -/
def splitStep (bounding_box : BoundingBox) (ws : ChildWriters) (p : Point) : ChildWriters :=
  let child_index := get_child_index bounding_box p.position
  Function.update ws child_index (some ((ws child_index).getD [] ++ [p]))

/-- The child writers produced by the stream loop of split, starting from
the 8 absent writers. -/
def splitChildren (bounding_box : BoundingBox) (stream : List Point) : ChildWriters :=
  stream.foldl (splitStep bounding_box) (fun _ => none)

/-- The points of the stream whose child index is i, in stream order. -/
def octantPoints (bounding_box : BoundingBox) (stream : List Point) (i : Nat) : List Point :=
  stream.filter (fun p => get_child_index bounding_box p.position == i)

/-- The descriptors returned by split, translated from the loop at the end
of split over the 8 writers: one SplittedNode for each writer that was
created, with the child name, its point count and its child bounding box
(output_directory only names the files, which the writer model tracks by
presence). -/
def split (output_directory name : String) (bounding_box : BoundingBox)
    (stream : List Point) : List SplittedNode :=
  (List.range 8).filterMap (fun i =>
    (splitChildren bounding_box stream i).map (fun c =>
      { name := child_node_name name i
        num_points := (c.length : Int)
        bounding_box := get_child_bounding_box bounding_box i }))

lemma foldl_splitStep_apply (bounding_box : BoundingBox) :
    ∀ (ps : List Point) (ws : ChildWriters) (i : Nat),
      ps.foldl (splitStep bounding_box) ws i =
        if octantPoints bounding_box ps i = [] then ws i
        else some ((ws i).getD [] ++ octantPoints bounding_box ps i) := by
  intro ps
  induction ps with
  | nil =>
    intro ws i
    simp [octantPoints]
  | cons p ps ih =>
    intro ws i
    rw [List.foldl_cons, ih]
    by_cases h : get_child_index bounding_box p.position = i
    · have hstep : splitStep bounding_box ws p i = some ((ws i).getD [] ++ [p]) := by
        simp [splitStep, h]
      have hoct : octantPoints bounding_box (p :: ps) i = p :: octantPoints bounding_box ps i := by
        simp [octantPoints, List.filter_cons, h]
      rw [hstep, hoct]
      by_cases he : octantPoints bounding_box ps i = []
      · simp [he]
      · simp [he]
    · have hstep : splitStep bounding_box ws p i = ws i := by
        have hne : i ≠ get_child_index bounding_box p.position := fun hh => h hh.symm
        simp [splitStep, Function.update_noteq hne]
      have hoct : octantPoints bounding_box (p :: ps) i = octantPoints bounding_box ps i := by
        simp [octantPoints, List.filter_cons, h]
      rw [hstep, hoct]

lemma splitChildren_apply (bounding_box : BoundingBox) (stream : List Point) (i : Nat) :
    splitChildren bounding_box stream i =
      if octantPoints bounding_box stream i = [] then none
      else some (octantPoints bounding_box stream i) := by
  have h := foldl_splitStep_apply bounding_box stream (fun _ => none) i
  simpa [splitChildren] using h

lemma charDigit_toNat : ∀ i, i < 8 → (Char.ofNat (48 + i)).toNat - 48 = i := by decide

/-- C2: every point stored by split into the writer of octant i has child
index i as computed by get_child_index on the node bounding box, and the
file that writer owns is named by appending the digit i to the node name,
so its parent name is the node name and its last digit is i. -/
theorem split_partition_correct (bounding_box : BoundingBox) (stream : List Point)
    (name : String) (i : Nat) (hi : i < 8) (c : List Point)
    (hc : splitChildren bounding_box stream i = some c) :
    (∀ p ∈ c, get_child_index bounding_box p.position = i) ∧
    parent_node_name (child_node_name name i) = name ∧
    lastDigit (child_node_name name i) = i := by
  refine ⟨?_, ?_, ?_⟩
  · intro p hp
    rw [splitChildren_apply] at hc
    by_cases he : octantPoints bounding_box stream i = []
    · simp [he] at hc
    · simp only [he, if_false, Option.some.injEq] at hc
      subst hc
      have hmem := List.of_mem_filter hp
      simpa using hmem
  · show String.mk ((name.data ++ [Char.ofNat (48 + i)]).dropLast) = name
    simp
  · show (((name.data ++ [Char.ofNat (48 + i)]).getLast?.map (fun ch => ch.toNat - 48)).getD 0) = i
    simp [charDigit_toNat i hi]

/-- Concrete bounding box used by the evaluation witnesses. -/
def testBox : BoundingBox := ⟨⟨0, 0, 0⟩, ⟨2, 2, 2⟩⟩

/-- Concrete point used by the evaluation witnesses; it lies in octant 7 of
testBox. -/
def testPoint : Point := ⟨⟨2, 2, 2⟩, 10, 20, 30⟩

lemma get_child_index_testPoint : get_child_index testBox testPoint.position = 7 := by
  have h : ((0 : ℚ) + 2) / 2 < 2 := by norm_num
  simp [get_child_index, testBox, testPoint, BoundingBox.center, h]

lemma splitChildren_testPoint :
    splitChildren testBox [testPoint] 7 = some [testPoint] := by
  simp [splitChildren, splitStep, get_child_index_testPoint]

/-- Witness for C2 at a concrete input. -/
theorem split_partition_correct_witness :
    (∀ p ∈ [testPoint], get_child_index testBox p.position = 7) ∧
    parent_node_name (child_node_name "r" 7) = "r" ∧
    lastDigit (child_node_name "r" 7) = 7 :=
  split_partition_correct testBox [testPoint] "r" 7 (by decide) [testPoint]
    splitChildren_testPoint

lemma sum_map_ite_eq_add_one :
    ∀ (n j : Nat), j < n → ∀ (g : Nat → Nat),
      ((List.range n).map (fun i => if j = i then g i + 1 else g i)).sum
        = ((List.range n).map g).sum + 1 := by
  intro n
  induction n with
  | zero => intro j hj g; exact absurd hj (Nat.not_lt_zero j)
  | succ n ih =>
    intro j hj g
    rw [List.range_succ, List.map_append, List.map_append, List.sum_append, List.sum_append]
    by_cases hjn : j = n
    · have hmap : (List.range n).map (fun i => if j = i then g i + 1 else g i)
          = (List.range n).map g := by
        apply List.map_congr_left
        intro i hi
        have hin : i < n := List.mem_range.mp hi
        have hne : j ≠ i := by omega
        simp [hne]
      rw [hmap]
      simp [hjn]
      omega
    · have hj' : j < n := by omega
      rw [ih j hj' g]
      simp [hjn]
      omega

lemma octantPoints_length_sum (bounding_box : BoundingBox) :
    ∀ stream : List Point,
      ((List.range 8).map (fun i => (octantPoints bounding_box stream i).length)).sum
        = stream.length := by
  intro stream
  induction stream with
  | nil => simp [octantPoints]
  | cons p s ih =>
    have hlt : get_child_index bounding_box p.position < 8 :=
      childIndexBits_lt _ _ _
    have hmap : (List.range 8).map (fun i => (octantPoints bounding_box (p :: s) i).length)
        = (List.range 8).map (fun i =>
            if get_child_index bounding_box p.position = i
            then (octantPoints bounding_box s i).length + 1
            else (octantPoints bounding_box s i).length) := by
      apply List.map_congr_left
      intro i _
      by_cases h : get_child_index bounding_box p.position = i
      · simp [octantPoints, List.filter_cons, h]
      · simp [octantPoints, List.filter_cons, h]
    rw [hmap, sum_map_ite_eq_add_one 8 _ hlt, ih, List.length_cons]

lemma split_map_num_points (name : String) (bounding_box : BoundingBox)
    (stream : List Point) :
    ∀ l : List Nat,
      ((l.filterMap (fun i =>
          (splitChildren bounding_box stream i).map (fun c =>
            ({ name := child_node_name name i
               num_points := (c.length : Int)
               bounding_box := get_child_bounding_box bounding_box i } : SplittedNode)))).map
        (fun nd => nd.num_points)).sum
        = (l.map (fun i => ((octantPoints bounding_box stream i).length : Int))).sum := by
  intro l
  induction l with
  | nil => simp
  | cons i l ih =>
    have happ := splitChildren_apply bounding_box stream i
    by_cases he : octantPoints bounding_box stream i = []
    · rw [List.filterMap_cons, happ]
      simp [he, ih]
    · rw [List.filterMap_cons, happ]
      simp only [he, if_false]
      simp [ih]

lemma charDigit_inj : ∀ i, i < 8 → ∀ j, j < 8 →
    Char.ofNat (48 + i) = Char.ofNat (48 + j) → i = j := by decide

lemma child_node_name_inj (name : String) (i j : Nat) (hi : i < 8) (hj : j < 8)
    (h : child_node_name name i = child_node_name name j) : i = j := by
  have hdata : name.data ++ [Char.ofNat (48 + i)] = name.data ++ [Char.ofNat (48 + j)] :=
    congrArg String.data h
  have hc : Char.ofNat (48 + i) = Char.ofNat (48 + j) := by
    have hcons := List.append_cancel_left hdata
    simpa using hcons
  exact charDigit_inj i hi j hj hc

/-- C2 and C4 use this canonical descriptor of octant i. -/
def octantDescriptor (name : String) (bounding_box : BoundingBox) (stream : List Point)
    (i : Nat) : SplittedNode :=
  { name := child_node_name name i
    bounding_box := get_child_bounding_box bounding_box i
    num_points := ((octantPoints bounding_box stream i).length : Int) }

/-- C4: split returns exactly one descriptor per octant that received at
least one point: the writer of octant i exists if and only if some stream
point has child index i (so an empty octant creates no file), the
descriptor of octant i carries the child name, the child bounding box and
the number of stream points of child index i, any returned descriptor
bearing the name of octant i is that descriptor, and the descriptor point
counts sum to the stream length. -/
theorem split_descriptors (output_directory name : String) (bounding_box : BoundingBox)
    (stream : List Point) :
    (∀ i, i < 8 →
      (splitChildren bounding_box stream i = none ↔ octantPoints bounding_box stream i = []) ∧
      (octantPoints bounding_box stream i ≠ [] →
        octantDescriptor name bounding_box stream i ∈ split output_directory name bounding_box stream) ∧
      (∀ nd ∈ split output_directory name bounding_box stream,
        nd.name = child_node_name name i →
          nd = octantDescriptor name bounding_box stream i)) ∧
    ((split output_directory name bounding_box stream).map (fun nd => nd.num_points)).sum
      = (stream.length : Int) := by
  constructor
  · intro i hi
    refine ⟨?_, ?_, ?_⟩
    · rw [splitChildren_apply]
      by_cases he : octantPoints bounding_box stream i = [] <;> simp [he]
    · intro hne
      apply List.mem_filterMap.mpr
      refine ⟨i, List.mem_range.mpr hi, ?_⟩
      rw [splitChildren_apply]
      simp [hne, octantDescriptor]
    · intro nd hnd hname
      rcases List.mem_filterMap.mp hnd with ⟨j, hj, hfj⟩
      have hj8 : j < 8 := List.mem_range.mp hj
      rcases Option.map_eq_some'.mp hfj with ⟨c, hcj, hnd_eq⟩
      have hname_j : nd.name = child_node_name name j := by rw [← hnd_eq]
      have hji : j = i :=
        child_node_name_inj name j i hj8 hi (hname_j.symm.trans hname)
      subst hji
      rw [splitChildren_apply] at hcj
      by_cases he : octantPoints bounding_box stream j = []
      · simp [he] at hcj
      · simp only [he, if_false, Option.some.injEq] at hcj
        subst hcj
        rw [← hnd_eq]
        rfl
  · have h1 := split_map_num_points name bounding_box stream (List.range 8)
    have h2 : ((List.range 8).map
          (fun i => ((octantPoints bounding_box stream i).length : Int))).sum
        = (stream.length : Int) := by
      have hcast : ((List.range 8).map
            (fun i => ((octantPoints bounding_box stream i).length : Int))).sum
          = ((((List.range 8).map
              (fun i => (octantPoints bounding_box stream i).length)).sum : Nat) : Int) := by
        rw [Nat.cast_list_sum, List.map_map]
        rfl
      rw [hcast, octantPoints_length_sum]
    exact h1.trans h2

lemma octantPoints_testPoint : octantPoints testBox [testPoint] 7 = [testPoint] := by
  simp [octantPoints, get_child_index_testPoint]

/-- Witness for C4 at a concrete input. -/
theorem split_descriptors_witness :
    octantDescriptor "r" testBox [testPoint] 7 ∈ split "d" "r" testBox [testPoint] :=
  ((split_descriptors "d" "r" testBox [testPoint]).1 7 (by decide)).2.1
    (by simp [octantPoints_testPoint])

/-- The per-child loop of subsample_children_into, translated from the
enumerate loop over the buffered child points: the point at read index idx
goes to the parent writer when idx is divisible by 8 and back to the child
writer otherwise.  The child file was fully read into the list before
either writer receives anything, which the pure model reflects by
consuming the buffered list as a value.  The first component is what the
parent receives from this child, the second the rewritten child file, both
in read order. -/
def subsampleChild : Nat → List Point → List Point × List Point
  | _, [] => ([], [])
  | idx, p :: ps =>
    let rest := subsampleChild (idx + 1) ps
    if idx % 8 = 0 then (p :: rest.1, rest.2) else (rest.1, p :: rest.2)

lemma subsampleChild_eq_filter :
    ∀ (ps : List Point) (idx : Nat),
      subsampleChild idx ps
        = (((List.enumFrom idx ps).filter (fun ip => ip.1 % 8 == 0)).map Prod.snd,
           ((List.enumFrom idx ps).filter (fun ip => !(ip.1 % 8 == 0))).map Prod.snd) := by
  intro ps
  induction ps with
  | nil => intro idx; simp [subsampleChild]
  | cons p ps ih =>
    intro idx
    by_cases h : idx % 8 = 0
    · simp [subsampleChild, List.enumFrom, h, ih (idx + 1)]
    · simp [subsampleChild, List.enumFrom, h, ih (idx + 1)]

lemma subsampleChild_fst_length :
    ∀ (ps : List Point) (idx : Nat),
      (subsampleChild idx ps).1.length = (idx + ps.length + 7) / 8 - (idx + 7) / 8 := by
  intro ps
  induction ps with
  | nil => intro idx; simp [subsampleChild]
  | cons p ps ih =>
    intro idx
    by_cases h : idx % 8 = 0
    · simp only [subsampleChild, if_pos h]
      simp [ih (idx + 1)]
      omega
    · simp only [subsampleChild, if_neg h]
      simp [ih (idx + 1)]
      omega

lemma subsampleChild_length_sum :
    ∀ (ps : List Point) (idx : Nat),
      (subsampleChild idx ps).1.length + (subsampleChild idx ps).2.length = ps.length := by
  intro ps
  induction ps with
  | nil => intro idx; simp [subsampleChild]
  | cons p ps ih =>
    intro idx
    by_cases h : idx % 8 = 0
    · simp only [subsampleChild, if_pos h]
      have := ih (idx + 1)
      simp only [List.length_cons]
      omega
    · simp only [subsampleChild, if_neg h]
      have := ih (idx + 1)
      simp only [List.length_cons]
      omega

lemma subsampleChild_fst_sublist :
    ∀ (ps : List Point) (idx : Nat), List.Sublist (subsampleChild idx ps).1 ps := by
  intro ps
  induction ps with
  | nil => intro idx; simp [subsampleChild]
  | cons p ps ih =>
    intro idx
    by_cases h : idx % 8 = 0
    · simp only [subsampleChild, if_pos h]
      exact (ih (idx + 1)).cons₂ p
    · simp only [subsampleChild, if_neg h]
      exact (ih (idx + 1)).cons p

lemma subsampleChild_snd_sublist :
    ∀ (ps : List Point) (idx : Nat), List.Sublist (subsampleChild idx ps).2 ps := by
  intro ps
  induction ps with
  | nil => intro idx; simp [subsampleChild]
  | cons p ps ih =>
    intro idx
    by_cases h : idx % 8 = 0
    · simp only [subsampleChild, if_pos h]
      exact (ih (idx + 1)).cons p
    · simp only [subsampleChild, if_neg h]
      exact (ih (idx + 1)).cons₂ p

/-- C3: for a child file of subsample_children_into holding the points pts
(n of them, fully buffered before rewriting), exactly the points at read
indices divisible by 8 go to the parent writer, in read order, and the
remaining points are written back to the child, in read order: the parent
receives the ceiling of n/8 points, the rewritten child holds the other
n - ceiling(n/8) points, and the two parts together account for all n
points. -/
theorem subsample_child_decimation (pts : List Point) :
    (subsampleChild 0 pts).1
        = ((pts.enum.filter (fun ip => ip.1 % 8 == 0)).map Prod.snd) ∧
    (subsampleChild 0 pts).2
        = ((pts.enum.filter (fun ip => !(ip.1 % 8 == 0))).map Prod.snd) ∧
    List.Sublist (subsampleChild 0 pts).1 pts ∧
    List.Sublist (subsampleChild 0 pts).2 pts ∧
    (subsampleChild 0 pts).1.length = (pts.length + 7) / 8 ∧
    (subsampleChild 0 pts).2.length = pts.length - (pts.length + 7) / 8 ∧
    (subsampleChild 0 pts).1.length + (subsampleChild 0 pts).2.length = pts.length := by
  have hfil := subsampleChild_eq_filter pts 0
  have hlen := subsampleChild_fst_length pts 0
  have hsum := subsampleChild_length_sum pts 0
  refine ⟨?_, ?_, subsampleChild_fst_sublist pts 0, subsampleChild_snd_sublist pts 0, ?_, ?_, hsum⟩
  · rw [hfil]; rfl
  · rw [hfil]; rfl
  · omega
  · omega

/-- One step of the parent-collection scan in the subsample loop of main,
translated from the body of the for loop over the same-length nodes: an
empty or already collected parent is skipped; otherwise the parent is
recorded (the HashSet is modelled as an insertion-ordered deduplicated
list) and its grandparent, when non-empty, is pushed onto the remaining
work list. -/
def collectParentsStep (acc : List String × List String) (node : String) :
    List String × List String :=
  let parent_name := parent_node_name node
  if parent_name = "" ∨ parent_name ∈ acc.1 then acc
  else
    let grand_parent := parent_node_name parent_name
    (acc.1 ++ [parent_name],
     if grand_parent = "" then acc.2 else acc.2 ++ [grand_parent])

/-- The subsample driver loop of main, translated from the while loop over
leaf_nodes: take the name length of the first entry, split off all entries
of that length, collect their parents while pushing grandparents onto the
remaining list, run subsample_children_into on every collected parent, and
continue with the remaining list.  The result is the sequence of node
names passed to subsample_children_into; fuel only bounds the number of
iterations, with none returned on exhaustion (the real loop terminates
because pushed names are strictly shorter than the consumed ones). -/
def subsampleLoop : Nat → List String → Option (List String)
  | 0, _ => none
  | _ + 1, [] => some []
  | fuel + 1, first :: others =>
    let leaf_nodes := first :: others
    let current_length := first.length
    let same := leaf_nodes.filter (fun n => n.length == current_length)
    let rest := leaf_nodes.filter (fun n => !(n.length == current_length))
    let collected := same.foldl collectParentsStep ([], [])
    (subsampleLoop fuel (rest ++ collected.2)).map (fun later => collected.1 ++ later)

/-- C1 fails on the code: with the split-phase leaves r30 through r37 (as
produced, for example, by an input whose 250,000 points all lie in octant 3
of the root), the subsample loop terminates after passing only r3 to
subsample_children_into.  The root r, a proper ancestor of every leaf, is
pushed as a work item, but the loop only ever subsamples parents of work
items and the parent of r is empty, so no node file for r is ever
produced. -/
theorem subsample_loop_misses_root :
    subsampleLoop 16 ["r30", "r31", "r32", "r33", "r34", "r35", "r36", "r37"]
      = some ["r3"] ∧ "r" ∉ ["r3"] := by
  constructor
  · rfl
  · decide

/-- The routing decision of split_node, translated from lines 190-205: the
children returned by split are partitioned by the fixed 100,000-point leaf
threshold; every node of the below-threshold part has its name sent on the
leaf_nodes channel, and every node of the other part is dispatched as a
recursive task whose stream is PointStream::from_blob over the node file
of that child (recorded here as the blob path paired with the child). -/
def split_node_route (output_directory : String) (children : List SplittedNode) :
    List String × List (SplittedNode × String) :=
  let parts := children.partition (fun n => decide (n.num_points < 100000))
  (parts.1.map (fun n => n.name),
   parts.2.map (fun child => (child, node_path output_directory child.name)))

/-- C5: split_node partitions the children of split by the leaf threshold
100,000: a child with fewer than 100,000 points lands in the leaf part and
its name is posted to the leaf channel, a child with at least 100,000
points lands in the recursion part and is dispatched with a from_blob
stream over its node file, and no child lands in both parts. -/
theorem split_node_threshold (output_directory : String) (children : List SplittedNode)
    (c : SplittedNode) (hc : c ∈ children) :
    (c.num_points < 100000 →
      c ∈ (children.partition (fun n => decide (n.num_points < 100000))).1 ∧
      c.name ∈ (split_node_route output_directory children).1) ∧
    (100000 ≤ c.num_points →
      c ∈ (children.partition (fun n => decide (n.num_points < 100000))).2 ∧
      (c, node_path output_directory c.name)
        ∈ (split_node_route output_directory children).2) ∧
    ¬(c ∈ (children.partition (fun n => decide (n.num_points < 100000))).1 ∧
      c ∈ (children.partition (fun n => decide (n.num_points < 100000))).2) := by
  rw [List.partition_eq_filter_filter]
  refine ⟨?_, ?_, ?_⟩
  · intro hlt
    have hmem : c ∈ children.filter (fun n => decide (n.num_points < 100000)) :=
      List.mem_filter.mpr ⟨hc, by simpa using hlt⟩
    refine ⟨hmem, ?_⟩
    have : c.name ∈ (children.filter (fun n => decide (n.num_points < 100000))).map
        (fun n => n.name) := List.mem_map_of_mem _ hmem
    simpa [split_node_route, List.partition_eq_filter_filter] using this
  · intro hge
    have hmem : c ∈ children.filter (fun n => !(decide (n.num_points < 100000))) :=
      List.mem_filter.mpr ⟨hc, by simp; omega⟩
    refine ⟨hmem, ?_⟩
    have : (c, node_path output_directory c.name)
        ∈ (children.filter (fun n => !(decide (n.num_points < 100000)))).map
          (fun child => (child, node_path output_directory child.name)) :=
      List.mem_map_of_mem _ hmem
    simpa [split_node_route, List.partition_eq_filter_filter] using this
  · rintro ⟨h1, h2⟩
    have hp1 := (List.mem_filter.mp h1).2
    have hp2 := (List.mem_filter.mp h2).2
    simp at hp1 hp2
    omega

/-- Concrete below-threshold child used by the C5 witness. -/
def testLeafChild : SplittedNode := ⟨"r0", testBox, 5⟩

/-- Witness for C5 at a concrete input. -/
theorem split_node_threshold_witness :
    testLeafChild.name ∈ (split_node_route "d" [testLeafChild]).1 :=
  ((split_node_threshold "d" [testLeafChild] testLeafChild (by simp)).1 (by decide)).2

/-- A node writer, translated from NodeWriter: the path of its file, the
points written so far (the file contents, in write order) and the i64
write counter. -/
structure NodeWriter where
  path : String
  contents : List Point
  num_points : Int
  deriving DecidableEq

/-- Translated from NodeWriter::new: create (truncate) the file at the
path, with the counter at zero. -/
def NodeWriter.new (path : String) : NodeWriter := ⟨path, [], 0⟩

/-- Translated from NodeWriter::write: emit the 15-byte record for the
point and increment the counter. -/
def NodeWriter.write (w : NodeWriter) (p : Point) : NodeWriter :=
  ⟨w.path, w.contents ++ [p], w.num_points + 1⟩

/-- Translated from the Drop impl of NodeWriter: on release the file is
removed exactly when the counter is zero; the removal error is ignored, so
the boolean records only whether removal is attempted. -/
def NodeWriter.dropRemovesFile (w : NodeWriter) : Bool := w.num_points == 0

lemma foldl_write_eq (path : String) :
    ∀ (ps : List Point) (w : NodeWriter),
      ps.foldl NodeWriter.write w
        = ⟨w.path, w.contents ++ ps, w.num_points + ps.length⟩ := by
  intro ps
  induction ps with
  | nil => intro w; simp
  | cons p ps ih =>
    intro w
    rw [List.foldl_cons, ih]
    simp [NodeWriter.write]
    omega

/-- C7: a NodeWriter built by new and a sequence of writes removes its file
on release exactly when its counter is zero; the counter equals the number
of writes and the file holds exactly the written points, so a writer that
wrote at least one point leaves its file in place, and only a writer that
owns an empty file deletes it. -/
theorem nodeWriter_drop (path : String) (ps : List Point) :
    (NodeWriter.dropRemovesFile (ps.foldl NodeWriter.write (NodeWriter.new path)) = true
      ↔ (ps.foldl NodeWriter.write (NodeWriter.new path)).num_points = 0) ∧
    (ps.foldl NodeWriter.write (NodeWriter.new path)).num_points = ps.length ∧
    (ps.foldl NodeWriter.write (NodeWriter.new path)).contents = ps ∧
    (ps ≠ [] →
      NodeWriter.dropRemovesFile (ps.foldl NodeWriter.write (NodeWriter.new path)) = false) := by
  rw [foldl_write_eq path ps (NodeWriter.new path)]
  refine ⟨by simp [NodeWriter.dropRemovesFile, NodeWriter.new], ?_, ?_, ?_⟩
  · simp [NodeWriter.new]
  · simp [NodeWriter.new]
  · intro hne
    have hlen : 0 < ps.length := List.length_pos.mpr hne
    simp only [NodeWriter.dropRemovesFile, NodeWriter.new, beq_eq_false_iff_ne, ne_eq]
    intro hcontra
    omega

/-- Witness for C7 at a concrete input. -/
theorem nodeWriter_drop_witness :
    NodeWriter.dropRemovesFile
      ([testPoint].foldl NodeWriter.write (NodeWriter.new "d/r7")) = false :=
  (nodeWriter_drop "d/r7" [testPoint]).2.2.2 (by simp)

/-- A progress message, translated from Status (the two counters are i64,
modelled as Int). -/
structure Status where
  name : String
  current_points : Int
  num_points : Int
  deriving DecidableEq

/-- The sending progress reporter, translated from SendingProgressReporter;
instead of a channel sender the model accumulates every sent Status in
sent, in send order. -/
structure SendingProgressReporter where
  name : String
  num_points : Int
  current_points : Int
  sent : List Status
  deriving DecidableEq

/-- Translated from send_status: send a Status carrying the current state
on the channel. -/
def SendingProgressReporter.send_status (r : SendingProgressReporter) :
    SendingProgressReporter :=
  { r with sent := r.sent ++ [⟨r.name, r.current_points, r.num_points⟩] }

/-- Translated from SendingProgressReporter::new: start at zero current
points and immediately send a status. -/
def SendingProgressReporter.new (name : String) (num_points : Int) :
    SendingProgressReporter :=
  SendingProgressReporter.send_status ⟨name, num_points, 0, []⟩

/-- Translated from add: the incremented current count is clamped to
num_points with min, then a status is sent (count is u64 in the source,
modelled as Nat). -/
def SendingProgressReporter.add (r : SendingProgressReporter) (count : Nat) :
    SendingProgressReporter :=
  SendingProgressReporter.send_status
    { r with current_points := Min.min (r.current_points + (count : Int)) r.num_points }

/-- Translated from finish: current is set to the total, then a status is
sent. -/
def SendingProgressReporter.finish (r : SendingProgressReporter) :
    SendingProgressReporter :=
  SendingProgressReporter.send_status { r with current_points := r.num_points }

/-- The reporter state after construction and a sequence of add calls. -/
def reporterAfter (name : String) (num_points : Int) (counts : List Nat) :
    SendingProgressReporter :=
  counts.foldl SendingProgressReporter.add (SendingProgressReporter.new name num_points)

lemma foldl_add_invariant :
    ∀ (counts : List Nat) (r : SendingProgressReporter),
      r.current_points ≤ r.num_points →
      (∀ s ∈ r.sent, s.current_points ≤ s.num_points) →
      (counts.foldl SendingProgressReporter.add r).current_points
          ≤ (counts.foldl SendingProgressReporter.add r).num_points ∧
      (counts.foldl SendingProgressReporter.add r).num_points = r.num_points ∧
      (∀ s ∈ (counts.foldl SendingProgressReporter.add r).sent,
        s.current_points ≤ s.num_points) := by
  intro counts
  induction counts with
  | nil => intro r h1 h2; exact ⟨h1, rfl, h2⟩
  | cons count counts ih =>
    intro r h1 h2
    rw [List.foldl_cons]
    have hcur : (r.add count).current_points ≤ (r.add count).num_points := by
      simp [SendingProgressReporter.add, SendingProgressReporter.send_status]
    have hsent : ∀ s ∈ (r.add count).sent, s.current_points ≤ s.num_points := by
      intro s hs
      simp only [SendingProgressReporter.add, SendingProgressReporter.send_status,
        List.mem_append, List.mem_singleton] at hs
      rcases hs with hs | hs
      · exact h2 s hs
      · subst hs; simp
    have := ih (r.add count) hcur hsent
    simpa [SendingProgressReporter.add, SendingProgressReporter.send_status] using this

/-- C10: a reporter built with a nonnegative total maintains
current_points at most num_points after construction and after every
sequence of add calls, because add clamps the incremented value with min;
consequently every status it has sent (including those triggered by the
over-eager updates of split) reports current at most total, an add reaches
the total only through that clamping, and finish sets current to exactly
the total. -/
theorem reporter_invariant (name : String) (n : Int) (hn : 0 ≤ n) (counts : List Nat) :
    (reporterAfter name n counts).current_points ≤ (reporterAfter name n counts).num_points ∧
    (∀ s ∈ (reporterAfter name n counts).sent, s.current_points ≤ s.num_points) ∧
    (∀ count : Nat,
      ((reporterAfter name n counts).add count).current_points
        = Min.min ((reporterAfter name n counts).current_points + (count : Int))
            (reporterAfter name n counts).num_points) ∧
    ((reporterAfter name n counts).finish).current_points
      = ((reporterAfter name n counts).finish).num_points ∧
    (∀ s ∈ ((reporterAfter name n counts).finish).sent,
      s.current_points ≤ s.num_points) := by
  have hstart : (SendingProgressReporter.new name n).current_points
      ≤ (SendingProgressReporter.new name n).num_points := by
    simpa [SendingProgressReporter.new, SendingProgressReporter.send_status] using hn
  have hsent0 : ∀ s ∈ (SendingProgressReporter.new name n).sent,
      s.current_points ≤ s.num_points := by
    intro s hs
    simp only [SendingProgressReporter.new, SendingProgressReporter.send_status,
      List.nil_append, List.mem_singleton] at hs
    subst hs
    simpa using hn
  have hmain := foldl_add_invariant counts (SendingProgressReporter.new name n) hstart hsent0
  refine ⟨hmain.1, hmain.2.2, ?_, ?_, ?_⟩
  · intro count
    simp [SendingProgressReporter.add, SendingProgressReporter.send_status, reporterAfter]
  · simp [SendingProgressReporter.finish, SendingProgressReporter.send_status]
  · intro s hs
    simp only [SendingProgressReporter.finish, SendingProgressReporter.send_status,
      List.mem_append, List.mem_singleton] at hs
    rcases hs with hs | hs
    · exact hmain.2.2 s hs
    · subst hs; simp

/-- Witness for C10 at a concrete input. -/
theorem reporter_invariant_witness :
    (reporterAfter "r" 7 [3, 9]).current_points ≤ (reporterAfter "r" 7 [3, 9]).num_points ∧
    (∀ s ∈ (reporterAfter "r" 7 [3, 9]).sent, s.current_points ≤ s.num_points) ∧
    (∀ count : Nat,
      ((reporterAfter "r" 7 [3, 9]).add count).current_points
        = Min.min ((reporterAfter "r" 7 [3, 9]).current_points + (count : Int))
            (reporterAfter "r" 7 [3, 9]).num_points) ∧
    ((reporterAfter "r" 7 [3, 9]).finish).current_points
      = ((reporterAfter "r" 7 [3, 9]).finish).num_points ∧
    (∀ s ∈ ((reporterAfter "r" 7 [3, 9]).finish).sent,
      s.current_points ≤ s.num_points) :=
  reporter_invariant "r" 7 (by decide) [3, 9]

/-- The per-point progress notification threshold, translated from
UPDATE_COUNT (an i64 used as a usize modulus and as a u64 increment;
modelled as Nat). -/
def UPDATE_COUNT : Nat := 100000

/-- The number of incremental progress notifications issued by the stream
loop of split for an n-point stream, translated from lines 96-99: the loop
enumerates the points from index 0 and calls add(UPDATE_COUNT) at every
index divisible by UPDATE_COUNT. -/
def splitAddEvents (n : Nat) : Nat :=
  ((List.range n).filter (fun num_point => num_point % UPDATE_COUNT == 0)).length

lemma splitAddEvents_succ (n : Nat) :
    splitAddEvents (n + 1)
      = splitAddEvents n + (if n % UPDATE_COUNT = 0 then 1 else 0) := by
  rw [splitAddEvents, splitAddEvents, List.range_succ, List.filter_append,
    List.length_append]
  by_cases h : n % UPDATE_COUNT = 0
  · simp [h]
  · simp [h]

lemma splitAddEvents_eq : ∀ n : Nat, splitAddEvents n = (n + 99999) / 100000 := by
  intro n
  induction n with
  | zero => rfl
  | succ n ih =>
    rw [splitAddEvents_succ, ih]
    unfold UPDATE_COUNT
    by_cases h : n % 100000 = 0
    · simp only [h, if_pos]
      omega
    · rw [if_neg h]
      omega

/-- C6 is false as stated: a single-point stream already triggers an
incremental notification, because the enumerate index 0 of the first point
is divisible by UPDATE_COUNT, while the claim predicts floor(1/100000) = 0
notifications with the first one only after 100,000 points. -/
theorem split_progress_claim_false :
    splitAddEvents 1 = 1 ∧ (1 : Nat) / 100000 = 0 := by
  constructor
  · rfl
  · decide

/-- C6 amended: with a progress reporter present, split issues one
incremental notification of +UPDATE_COUNT at every point whose zero-based
enumerate index is divisible by 100,000 — the ceiling of n/100000
notifications for an n-point stream, the first already at the first point
— and after the stream is drained, finish sends a final status whose
current equals the total. -/
theorem split_progress_events (n : Nat) (r : SendingProgressReporter) :
    splitAddEvents n = (n + 99999) / 100000 ∧
    r.finish.current_points = r.num_points ∧
    r.finish.sent = r.sent ++ [⟨r.name, r.num_points, r.num_points⟩] := by
  refine ⟨splitAddEvents_eq n, rfl, rfl⟩

/-- The bounding-box scan of main, lines 302-322: every streamed position
updates the box, and make_cubic is applied at the end of the scan.
Modelled from the spec for the starting box: BoundingBox::new lives in the
external crate; the model folds from the degenerate box at the first
point, which is what updating an empty box with its first point yields,
and returns none for an empty stream. -/
def scanBoundingBox : List Point → Option BoundingBox
  | [] => none
  | p :: ps =>
    some ((ps.foldl (fun (r : BoundingBox) q => r.update q.position)
      ⟨p.position, p.position⟩).make_cubic)

/-- The persisted metadata, translated from the meta object of main: a
version field equal to 1 and the bounding box of the scan (the six
min/max coordinate fields of meta.json are the box fields). -/
structure Meta where
  version : Nat
  bounding_box : BoundingBox
  deriving DecidableEq

/-- Translated from main, lines 302-340: scan the stream, make the box
cubic, and write version 1 together with the box. -/
def buildMeta (ps : List Point) : Option Meta :=
  (scanBoundingBox ps).map (fun b => ⟨1, b⟩)

lemma update_containsPos_mono (b : BoundingBox) (v w : Vector3f)
    (h : b.containsPos w) : (b.update v).containsPos w := by
  obtain ⟨h1, h2, h3, h4, h5, h6⟩ := h
  exact ⟨le_trans (min_le_left _ _) h1, le_trans h2 (le_max_left _ _),
    le_trans (min_le_left _ _) h3, le_trans h4 (le_max_left _ _),
    le_trans (min_le_left _ _) h5, le_trans h6 (le_max_left _ _)⟩

lemma update_containsPos_self (b : BoundingBox) (v : Vector3f) :
    (b.update v).containsPos v :=
  ⟨min_le_right _ _, le_max_right _ _, min_le_right _ _, le_max_right _ _,
   min_le_right _ _, le_max_right _ _⟩

lemma foldl_update_contains :
    ∀ (qs : List Point) (b : BoundingBox) (w : Vector3f),
      b.containsPos w →
      (qs.foldl (fun r q => r.update q.position) b).containsPos w := by
  intro qs
  induction qs with
  | nil => intro b w h; exact h
  | cons q qs ih =>
    intro b w h
    exact ih _ w (update_containsPos_mono b q.position w h)

lemma foldl_update_contains_mem :
    ∀ (qs : List Point) (b : BoundingBox), ∀ q ∈ qs,
      (qs.foldl (fun r s => r.update s.position) b).containsPos q.position := by
  intro qs
  induction qs with
  | nil => intro b q hq; exact absurd hq (List.not_mem_nil q)
  | cons q0 qs ih =>
    intro b q hq
    rcases List.mem_cons.mp hq with hq | hq
    · subst hq
      exact foldl_update_contains qs _ q.position (update_containsPos_self b q.position)
    · exact ih _ q hq

lemma make_cubic_containsPos (b : BoundingBox) (w : Vector3f)
    (h : b.containsPos w) : b.make_cubic.containsPos w := by
  obtain ⟨h1, h2, h3, h4, h5, h6⟩ := h
  have hx : b.max.x - b.min.x
      ≤ Max.max (b.max.x - b.min.x) (Max.max (b.max.y - b.min.y) (b.max.z - b.min.z)) :=
    le_max_left _ _
  have hy : b.max.y - b.min.y
      ≤ Max.max (b.max.x - b.min.x) (Max.max (b.max.y - b.min.y) (b.max.z - b.min.z)) :=
    le_trans (le_max_left _ _) (le_max_right _ _)
  have hz : b.max.z - b.min.z
      ≤ Max.max (b.max.x - b.min.x) (Max.max (b.max.y - b.min.y) (b.max.z - b.min.z)) :=
    le_trans (le_max_right _ _) (le_max_right _ _)
  refine ⟨?_, ?_, ?_, ?_, ?_, ?_⟩ <;>
    simp only [BoundingBox.make_cubic, BoundingBox.center] <;> linarith

lemma make_cubic_extents (b : BoundingBox) :
    b.make_cubic.max.x - b.make_cubic.min.x = b.make_cubic.max.y - b.make_cubic.min.y ∧
    b.make_cubic.max.y - b.make_cubic.min.y = b.make_cubic.max.z - b.make_cubic.min.z := by
  constructor <;> simp [BoundingBox.make_cubic, BoundingBox.center]

/-- C8: main persists a meta whose version field is 1 and whose bounding
box is make_cubic applied after scanning all input positions: the
persisted box has equal extents on the three axes and contains the
position of every input point. -/
theorem meta_version_and_cubic_box (ps : List Point) (m : Meta)
    (hm : buildMeta ps = some m) :
    m.version = 1 ∧
    (m.bounding_box.max.x - m.bounding_box.min.x
        = m.bounding_box.max.y - m.bounding_box.min.y ∧
     m.bounding_box.max.y - m.bounding_box.min.y
        = m.bounding_box.max.z - m.bounding_box.min.z) ∧
    (∀ p ∈ ps, m.bounding_box.containsPos p.position) := by
  cases ps with
  | nil => simp [buildMeta, scanBoundingBox] at hm
  | cons p rest =>
    simp only [buildMeta, scanBoundingBox, Option.map_some', Option.some.injEq] at hm
    subst hm
    refine ⟨rfl, make_cubic_extents _, ?_⟩
    intro q hq
    apply make_cubic_containsPos
    rcases List.mem_cons.mp hq with hq | hq
    · subst hq
      exact foldl_update_contains rest _ q.position
        ⟨le_refl _, le_refl _, le_refl _, le_refl _, le_refl _, le_refl _⟩
    · exact foldl_update_contains_mem rest _ q hq

/-- The meta value produced for the single concrete test point. -/
def testMeta : Meta :=
  ⟨1, (BoundingBox.make_cubic ⟨testPoint.position, testPoint.position⟩)⟩

/-- Witness for C8 at a concrete input. -/
theorem meta_version_and_cubic_box_witness :
    testMeta.version = 1 ∧
    (testMeta.bounding_box.max.x - testMeta.bounding_box.min.x
        = testMeta.bounding_box.max.y - testMeta.bounding_box.min.y ∧
     testMeta.bounding_box.max.y - testMeta.bounding_box.min.y
        = testMeta.bounding_box.max.z - testMeta.bounding_box.min.z) ∧
    (∀ p ∈ [testPoint], testMeta.bounding_box.containsPos p.position) :=
  meta_version_and_cubic_box [testPoint] testMeta rfl
